import Mathlib

/-!
Verification of the exemplar-management and metric-learning loss subsystem of an
iCaRL-style incremental-learning codebase.

The development shallowly embeds the relevant Python functions over lists of real
numbers:
* `inclearn/lib/losses/metrics.py`: pairwise/dense distances, triplet sampling
  strategies and the triplet loss;
* `inclearn/models/icarl.py`: herding exemplar selection, exemplar reduction,
  nearest-mean classification and classifier extension;
* `inclearn/lib/losses/regularizations.py`: the double-margin contrastive
  regularizer.

Feature vectors are `List ℝ`, feature batches and weight matrices are
`List (List ℝ)`, sparse labels are `List ℤ`.  Tensor broadcasting is rendered as
explicit `zipWith`/`map`.  External randomness (`np.random.choice`) is rendered
as an explicit oracle argument; a theorem quantifying over the oracle holds for
every outcome of the random source.  Fallible code returns `Except`.
-/

namespace Spec2Proof

/-! ## Basic vector operations -/

/-- Dot product of two vectors (`torch.mm` / `torch.cosine_similarity` numerator). -/
def dot (a b : List ℝ) : ℝ := (List.zipWith (fun x y => x * y) a b).sum

/-- Squared Euclidean distance, `torch.pow(a - b, 2).sum(-1)`. -/
def sqdist (a b : List ℝ) : ℝ := (List.zipWith (fun x y => (x - y) ^ 2) a b).sum

/-- Manhattan distance, `F.pairwise_distance(a, b, p=1)`. -/
def l1dist (a b : List ℝ) : ℝ := (List.zipWith (fun x y => |x - y|) a b).sum

/-- Euclidean norm of a vector. -/
noncomputable def norm2 (a : List ℝ) : ℝ := Real.sqrt (dot a a)

/-- `F.normalize(v)`: divide a vector by its Euclidean norm.  For the zero
vector every component is `0` and `0 / 0 = 0`, matching the eps-guarded
`torch` result of a zero vector. -/
noncomputable def normalizeVec (a : List ℝ) : List ℝ := a.map (fun x => x / norm2 a)

/-- `torch.cosine_similarity` of two vectors (eps guard dropped; a zero norm
yields `0 / 0 = 0`, matching the clamped `torch` value `0`). -/
noncomputable def cosSim (a b : List ℝ) : ℝ := dot a b / (norm2 a * norm2 b)

/-- `torch.argmin` over a vector rendered as a list: index of the first
occurrence of the minimum (`0` on the empty list). -/
noncomputable def argminIdx : List ℝ → Nat
  | [] => 0
  | x :: xs =>
    let j := argminIdx xs
    if xs = [] then 0
    else if x ≤ xs.getD j 0 then 0
    else j + 1

/-- Entry `(i, j)` of a matrix rendered as a list of rows. -/
def mGet (M : List (List ℝ)) (i j : Nat) : ℝ := (M.getD i []).getD j 0

/-! ## `inclearn/lib/losses/metrics.py` : distances -/

/-- Error taxonomy of the metrics module (`ValueError` / `AssertionError` /
`IndexError` raised by the Python code). -/
inductive MErr
  | unknownDistance
  | unknownSampling
  | unknownAggreg
  | invalidBatchSize
  | sampleError
  | indexError
  deriving DecidableEq, Repr

/-- `_pair_distance(a, b, distance_type)`: per-row distance between two
equal-shaped batches. -/
noncomputable def _pair_distance (a b : List (List ℝ)) (kind : String) :
    Except MErr (List ℝ) :=
  if kind = "l2" then .ok (List.zipWith (fun x y => Real.sqrt (sqdist x y)) a b)
  else if kind = "l2squared" then
    .ok (List.zipWith (fun x y => Real.sqrt (sqdist x y) ^ 2) a b)
  else if kind = "l1" then .ok (List.zipWith l1dist a b)
  else if kind = "cosine" then .ok (List.zipWith (fun x y => 1 - cosSim x y) a b)
  else .error .unknownDistance

/-- `_dense_distance(features, distance_type)`: full pairwise matrix.  Note the
`cosine` branch returns the raw similarity matrix of the normalized rows, not a
distance. -/
noncomputable def _dense_distance (features : List (List ℝ)) (kind : String) :
    Except MErr (List (List ℝ)) :=
  if kind = "l2" then
    .ok (features.map (fun x => features.map (fun y => Real.sqrt (sqdist x y))))
  else if kind = "l2squared" then
    .ok (features.map (fun x => features.map (fun y => Real.sqrt (sqdist x y) ^ 2)))
  else if kind = "l1" then
    .ok (features.map (fun x => features.map (fun y => l1dist x y)))
  else if kind = "cosine" then
    let n := features.map normalizeVec
    .ok (n.map (fun x => n.map (fun y => dot x y)))
  else .error .unknownDistance

/-! ## Triplet sampling -/

/-- `np.where(targets == v)[0]` as a list of positions. -/
def whereEq (targets : List ℤ) (v : ℤ) : List Nat :=
  (List.range targets.length).filter (fun i => targets.getD i 0 = v)

/-- `np.where(targets != v)[0]` as a list of positions. -/
def whereNe (targets : List ℤ) (v : ℤ) : List Nat :=
  (List.range targets.length).filter (fun i => targets.getD i 0 ≠ v)

/-- `np.random.choice(l, size=1)` driven by an oracle value `r`: some element
of `l`; raises on an empty pool. -/
def npChoice1 (l : List Nat) (r : Nat) : Except MErr Nat :=
  if l.isEmpty then .error .sampleError else .ok (l.getD (r % l.length) 0)

/-- `np.random.choice(l, size=2, replace=replace)` driven by oracle values
`r1, r2`.  Without replacement the two drawn positions are distinct. -/
def npChoice2 (l : List Nat) (replace : Bool) (r1 r2 : Nat) :
    Except MErr (Nat × Nat) :=
  if l.isEmpty then .error .sampleError
  else if replace then .ok (l.getD (r1 % l.length) 0, l.getD (r2 % l.length) 0)
  else
    let i := r1 % l.length
    let rest := l.eraseIdx i
    if rest.isEmpty then .error .sampleError
    else .ok (l.getD i 0, rest.getD (r2 % rest.length) 0)

/-- `np.random.choice(l, size=k, replace=False)` driven by an oracle, drawing
`k` pairwise-distinct positions; raises when the pool is exhausted. -/
def npChoiceK (oracle : Nat → Nat) : List Nat → Nat → Nat → Except MErr (List Nat)
  | _, 0, _ => .ok []
  | l, k + 1, step =>
    if l.isEmpty then .error .sampleError
    else
      let i := oracle step % l.length
      match npChoiceK oracle (l.eraseIdx i) k (step + 1) with
      | .ok rest => .ok (l.getD i 0 :: rest)
      | .error e => .error e

/-- Body of `_triplet_random_sampling`: one triple per row of `rows`, drawing a
positive from the anchor class (with replacement only when the class is a
singleton) and a negative from the complement. -/
def sampleRows (targets : List ℤ) (oracle : Nat → Nat × Nat × Nat) :
    List Nat → Except MErr (List (Nat × Nat × Nat))
  | [] => .ok []
  | t :: ts =>
    let tv := targets.getD t 0
    let pl := whereEq targets tv
    match npChoice2 pl (decide (pl.length < 2)) (oracle t).1 (oracle t).2.1 with
    | .error e => .error e
    | .ok (a, p) =>
      match npChoice1 (whereNe targets tv) (oracle t).2.2 with
      | .error e => .error e
      | .ok n =>
        match sampleRows targets oracle ts with
        | .error e => .error e
        | .ok rest => .ok ((a, p, n) :: rest)

/-- `_triplet_random_sampling(features, targets)`: anchor, positive and
negative index sequences, one triple per batch row. -/
def _triplet_random_sampling (targets : List ℤ) (oracle : Nat → Nat × Nat × Nat) :
    Except MErr (List Nat × List Nat × List Nat) :=
  match sampleRows targets oracle (List.range targets.length) with
  | .error e => .error e
  | .ok l => .ok (l.map (fun x => x.1), l.map (fun x => x.2.1), l.map (fun x => x.2.2))

/-- Python slice `l[start::3]`. -/
def everyThirdFrom (l : List Nat) (start : Nat) : List Nat :=
  ((List.range l.length).filter (fun k => k % 3 = start)).map (fun k => l.getD k 0)

/-- The `"3third"` strategy inlined in `triplet_loss`: `assert len % 3 == 0`,
then slot 0/1/2 of each consecutive group of three become
anchor/positive/negative. -/
def third3Sampling (n : Nat) : Except MErr (List Nat × List Nat × List Nat) :=
  if n % 3 = 0 then
    let indexes := List.range n
    .ok (everyThirdFrom indexes 0, everyThirdFrom indexes 1, everyThirdFrom indexes 2)
  else .error .invalidBatchSize

/-- `itertools.combinations(l, 2)` in source order. -/
def combinations2 : List Nat → List (Nat × Nat)
  | [] => []
  | x :: xs => xs.map (fun y => (x, y)) ++ combinations2 xs

/-- Distinct targets; the Python code iterates `set(targets)`, whose order is
unspecified, rendered here as first-occurrence order. -/
def dedupFirst (l : List ℤ) : List ℤ :=
  l.foldl (fun acc x => if x ∈ acc then acc else acc ++ [x]) []

/-- One class of `_triplet_facenet_sampling`: all same-class pairs become
(anchor, positive); in semi-hard mode pair `i` is kept only when its
anchor-positive distance is below the `i`-th entry of the flattened
anchor-negative distance vector (reading past its end is an `IndexError`), and
the appended negative is `neg_indexes[0]`; otherwise negatives are drawn
without replacement from the complement.  Returns the triples and the advanced
oracle counter. -/
noncomputable def facenetClass (M : List (List ℝ)) (targets : List ℤ)
    (semihard : Bool) (oracle : Nat → Nat) (v : ℤ) (c : Nat) :
    Except MErr (List (Nat × Nat × Nat) × Nat) :=
  let idxs := whereEq targets v
  let negs := whereNe targets v
  let pairs := combinations2 idxs
  if semihard then
    let apDist := pairs.map (fun p => mGet M p.1 p.2)
    let anFlat := idxs.flatMap (fun a => negs.map (fun n => mGet M a n))
    if anFlat.length < pairs.length then .error .indexError
    else
      .ok
        ((List.range pairs.length).filterMap (fun i =>
          let p := pairs.getD i (0, 0)
          if apDist.getD i 0 < anFlat.getD i 0 then some (p.1, p.2, negs.getD 0 0)
          else none), c)
  else
    match npChoiceK oracle negs pairs.length c with
    | .error e => .error e
    | .ok ns =>
      .ok ((List.zipWith (fun p n => (p.1, p.2, n)) pairs ns), c + pairs.length)

/-- Iteration of `_triplet_facenet_sampling` over the distinct targets. -/
noncomputable def facenetGo (M : List (List ℝ)) (targets : List ℤ)
    (semihard : Bool) (oracle : Nat → Nat) :
    List ℤ → Nat → Except MErr (List (Nat × Nat × Nat))
  | [], _ => .ok []
  | v :: vs, c =>
    match facenetClass M targets semihard oracle v c with
    | .error e => .error e
    | .ok (ts, c2) =>
      match facenetGo M targets semihard oracle vs c2 with
      | .error e => .error e
      | .ok rest => .ok (ts ++ rest)

/-- `_triplet_facenet_sampling(features, targets, semihard, distance)`. -/
noncomputable def _triplet_facenet_sampling (features : List (List ℝ))
    (targets : List ℤ) (semihard : Bool) (distance : String)
    (oracle : Nat → Nat) : Except MErr (List Nat × List Nat × List Nat) :=
  match _dense_distance features distance with
  | .error e => .error e
  | .ok M =>
    match facenetGo M targets semihard oracle (dedupFirst targets) 0 with
    | .error e => .error e
    | .ok l =>
      .ok (l.map (fun x => x.1), l.map (fun x => x.2.1), l.map (fun x => x.2.2))

/-! ## Triplet loss -/

/-- `_triplet(pos_distance, neg_distance, margin, aggreg)`: hinge terms
`clamp(margin + ap - an, min=0)` aggregated by mean, sum, or AdaMine
(sum over the count of strictly positive terms, floored at 1). -/
noncomputable def _triplet (pos_distance neg_distance : List ℝ) (margin : ℝ)
    (aggreg : String) : Except MErr ℝ :=
  let triplets := List.zipWith (fun p n => max (margin + p - n) 0) pos_distance neg_distance
  if aggreg = "mean" then .ok (triplets.sum / (triplets.length : ℝ))
  else if aggreg = "sum" then .ok triplets.sum
  else if aggreg = "adamine" then
    .ok (triplets.sum / ((max (triplets.filter (fun x => decide (0 < x))).length 1 : ℕ) : ℝ))
  else .error .unknownAggreg

/-- The `sampling_config` parameter of `triplet_loss`: its `"type"` string plus
the random oracle backing `np.random`. -/
inductive SamplingConfig
  | random (oracle : Nat → Nat × Nat × Nat)
  | third3
  | facenet (semihard : Bool) (oracle : Nat → Nat)
  | other (s : String)

/-- Sampling dispatch of `triplet_loss` on `sampling_config["type"]`. -/
noncomputable def sampleTriplets (fs : List (List ℝ)) (targets : List ℤ)
    (distance : String) : SamplingConfig → Except MErr (List Nat × List Nat × List Nat)
  | .random o => _triplet_random_sampling targets o
  | .third3 => third3Sampling fs.length
  | .facenet semihard o => _triplet_facenet_sampling fs targets semihard distance o
  | .other _ => .error .unknownSampling

/-- Distance and aggregation stage of `triplet_loss`, once the (possibly
normalized) features and the sampled index triples are fixed: gather the
anchor/positive/negative rows, compute the two (three, with ranking) pairwise
distance vectors, aggregate the hinge terms and scale by `factor`. -/
noncomputable def tripletFromIndexes (fs : List (List ℝ)) (distance : String)
    (ranking : Bool) (aggreg : String) (margin factor : ℝ)
    (ai pi ni : List Nat) : Except MErr ℝ :=
  match _pair_distance (ai.map (fun i => fs.getD i [])) (pi.map (fun i => fs.getD i []))
      distance with
  | .error e => .error e
  | .ok apd =>
    match _pair_distance (ai.map (fun i => fs.getD i []))
        (ni.map (fun i => fs.getD i [])) distance with
    | .error e => .error e
    | .ok ad =>
      match _triplet apd ad margin aggreg with
      | .error e => .error e
      | .ok base =>
        if ranking then
          match _pair_distance (pi.map (fun i => fs.getD i []))
              (ni.map (fun i => fs.getD i [])) distance with
          | .error e => .error e
          | .ok pnd =>
            match _triplet apd pnd margin aggreg with
            | .error e => .error e
            | .ok rterm => .ok (factor * (base + rterm))
        else .ok (factor * base)

/-- Sampling stage of `triplet_loss` on the (possibly normalized) features. -/
noncomputable def tripletWithFeatures (fs : List (List ℝ)) (targets : List ℤ)
    (distance : String) (ranking : Bool) (aggreg : String) (margin factor : ℝ)
    (cfg : SamplingConfig) : Except MErr ℝ :=
  match sampleTriplets fs targets distance cfg with
  | .error e => .error e
  | .ok (ai, pi, ni) =>
    tripletFromIndexes fs distance ranking aggreg margin factor ai pi ni

/-- `triplet_loss(features, targets, distance, ranking, aggreg, margin, factor,
normalize, sampling_config)`. -/
noncomputable def triplet_loss (features : List (List ℝ)) (targets : List ℤ)
    (distance : String) (ranking : Bool) (aggreg : String) (margin factor : ℝ)
    (normalize : Bool) (cfg : SamplingConfig) : Except MErr ℝ :=
  tripletWithFeatures (if normalize then features.map normalizeVec else features)
    targets distance ranking aggreg margin factor cfg

/-! ## `inclearn/models/icarl.py` : exemplar management -/

/-- Componentwise sum of two vectors (tensor broadcast `+`). -/
def vecAdd (a b : List ℝ) : List ℝ := List.zipWith (fun x y => x + y) a b

/-- Scalar multiple of a vector. -/
def vecSMul (c : ℝ) (a : List ℝ) : List ℝ := a.map (fun x => c * x)

/-- `_remove_row(matrix, idxes, row_idx)`: drop row `row_idx` from the feature
matrix and the parallel index list (`cat(matrix[:i], matrix[i+1:])`,
`idxes[:i] + idxes[i+1:]`). -/
def _remove_row (matrix : List (List ℝ)) (idxes : List Nat) (row_idx : Nat) :
    List (List ℝ) × List Nat :=
  (matrix.take row_idx ++ matrix.drop (row_idx + 1),
   idxes.take row_idx ++ idxes.drop (row_idx + 1))

/-- `_get_closest_features(center, features)`: argmin over rows of the squared
Euclidean distance between `center` and the re-normalized row. -/
noncomputable def _get_closest_features (center : List ℝ) (features : List (List ℝ)) :
    Nat :=
  argminIdx (features.map (fun f => sqdist center (normalizeVec f)))

/-- `_get_closest(centers, features)`: nearest-mean prediction, one argmin over
the class means per feature row. -/
noncomputable def _get_closest (centers : List (List ℝ)) (features : List (List ℝ)) :
    List Nat :=
  features.map (fun f => argminIdx (centers.map (fun c => sqdist c f)))

/-- The herding loop of `_build_examplars`, one class: at round `i` pick
`idx = _get_closest_features(class_mean, (features + examplars_mean) / (i+1))`,
record `idxes[idx]`, add `features[idx]` to the running sum and remove the row
from the candidate pool.  `steps` is the round count `min(m, len(features))`
fixed before the loop. -/
noncomputable def herd (class_mean : List ℝ) :
    Nat → Nat → List (List ℝ) → List Nat → List ℝ → List Nat → List Nat × List ℝ
  | 0, _, _, _, em, acc => (acc, em)
  | steps + 1, i, features, idxes, em, acc =>
    let idx := _get_closest_features class_mean
      (features.map (fun f => vecSMul (1 / ((i : ℝ) + 1)) (vecAdd f em)))
    let chosen := idxes.getD idx 0
    let em2 := vecAdd em (features.getD idx [])
    let p := _remove_row features idxes idx
    herd class_mean steps (i + 1) p.1 p.2 em2 (acc ++ [chosen])

/-- The per-new-class body of `_build_examplars` (lines 301-318): run herding
for `min(m, len(features))` rounds starting from a zero running sum of
dimension `d = out_dim`, and return the selected sample indexes together with
the normalized running mean stored as the class mean. -/
noncomputable def _build_examplars_class (d m : Nat) (features : List (List ℝ))
    (class_mean : List ℝ) (idxes : List Nat) : List Nat × List ℝ :=
  let r := herd class_mean (min m features.length) 0 features idxes
    (List.replicate d 0) []
  (r.1, normalizeVec (r.2.map (fun x => x / ((r.1.length : ℝ)))))

/-- `_reduce_examplars()`: truncate every class's exemplar index list to its
first `m` entries; the class-to-exemplars dict is rendered as a class-indexed
list of lists. -/
def _reduce_examplars (examplars : List (List Nat)) (m : Nat) : List (List Nat) :=
  examplars.map (fun l => l.take m)

/-- Error taxonomy of `_classify` (the two `ValueError`s of lines 208-215). -/
inductive ClassifyErr
  | meansNotBuilt
  | meanCountMismatch
  deriving DecidableEq, Repr

/-- `_classify(data_loader)`: fail when the means are unset or their count
differs from the class count, otherwise nearest-mean predictions over the
batches (each batch being extracted features paired with its targets),
concatenated in loader order. -/
noncomputable def _classify (means : Option (List (List ℝ))) (n_classes : Nat)
    (data : List (List (List ℝ) × List ℤ)) :
    Except ClassifyErr (List Nat × List ℤ) :=
  match means with
  | none => .error .meansNotBuilt
  | some ms =>
    if ms.length ≠ n_classes then .error .meanCountMismatch
    else .ok (data.flatMap (fun b => _get_closest ms b.1), data.flatMap (fun b => b.2))

/-- `_add_n_classes(n)`: allocate a fresh `(n_classes + n)`-row classifier
(`freshW`, `freshB` stand for the fresh random initialization) and copy the
old rows into positions `[: n_classes + n - n]`.  Returns the new class count,
weight and bias. -/
def _add_n_classes (n_classes : Nat) (weight : List (List ℝ)) (bias : List ℝ)
    (n : Nat) (freshW : List (List ℝ)) (freshB : List ℝ) :
    Nat × List (List ℝ) × List ℝ :=
  let nc := n_classes + n
  (nc, weight.take (nc - n) ++ freshW.drop (nc - n),
   bias.take (nc - n) ++ freshB.drop (nc - n))

/-! ## `inclearn/lib/losses/regularizations.py` : double-margin contrastive -/

/-- Error taxonomy of `double_margin_constrastive_regularization`
(`ValueError` for the margin check, `ZeroDivisionError` for `// K` with a zero
cluster count, `NotImplementedError` for an unknown aggregation, and the
runtime error of reducing an empty tensor with `torch.max`). -/
inductive RErr
  | invalidConfiguration
  | zeroDivision
  | unknownAggreg
  | emptyReduce
  | assertionFailed
  deriving DecidableEq, Repr

/-- `_dmr_weights_distance(weights, square)`:
`|2 - 2 * weights @ weights.T|`, with an extra `sqrt(|.| + 1e-10)` when
`square=False`. -/
noncomputable def _dmr_weights_distance (weights : List (List ℝ)) (square : Bool) :
    List (List ℝ) :=
  let dist := weights.map (fun a => weights.map (fun b => |2 - 2 * dot a b|))
  if square then dist
  else dist.map (fun row => row.map (fun x => Real.sqrt (|x| + 1e-10)))

/-- `_dmr_inter_mask(size, nb_classes, nb_clusters)` as a predicate on matrix
coordinates: cell `(i, j)` is kept when some class block `c` covers row `i`
with `j` beyond the block, minus the lower triangle including the diagonal. -/
def _dmr_inter_mask (nb_classes K i j : Nat) : Bool :=
  decide (i < j) &&
    (List.range nb_classes).any
      (fun c => decide (c * K ≤ i) && decide (i < (c + 1) * K) && decide ((c + 1) * K ≤ j))

/-- `_dmr_inter_oldvsnew_mask(size, current_index)` as a predicate. -/
def _dmr_inter_oldvsnew_mask (current_index i j : Nat) : Bool :=
  decide (i < j) && decide (i < current_index) && decide (current_index ≤ j)

/-- `_dmr_intra_mask(size, nb_classes, nb_clusters)` as a predicate. -/
def _dmr_intra_mask (nb_classes K i j : Nat) : Bool :=
  decide (i < j) &&
    (List.range nb_classes).any
      (fun c => decide (c * K ≤ i) && decide (i < (c + 1) * K) && decide (j < (c + 1) * K))

/-- `dist[mask]`: the entries of a square matrix selected by a boolean mask,
flattened in row-major order. -/
def maskSelect (D : List (List ℝ)) (mask : Nat → Nat → Bool) : List ℝ :=
  (List.range D.length).flatMap (fun i =>
    ((List.range (D.getD i []).length).filter (fun j => mask i j)).map
      (fun j => (D.getD i []).getD j 0))

/-- `_dmr_aggreg(losses, aggreg_mode)`: mean, max (a runtime error on an empty
tensor) or AdaMine. -/
noncomputable def _dmr_aggreg (losses : List ℝ) (mode : String) : Except RErr ℝ :=
  if mode = "mean" then .ok (losses.sum / (losses.length : ℝ))
  else if mode = "max" then
    match losses with
    | [] => .error .emptyReduce
    | x :: xs => .ok (xs.foldl max x)
  else if mode = "adamine" then
    .ok (losses.sum / ((max (losses.filter (fun x => decide (0 < x))).length 1 : ℕ) : ℝ))
  else .error .unknownAggreg

/-- The inter-distance / inter-margin selection of
`double_margin_constrastive_regularization` (lines 275-311): old-vs-new mask,
adaptive per-pair margins against a previous-task weight snapshot, or the
plain inter mask with a constant margin.  Returns the selected distances
paired with their margins. -/
noncomputable def dmrInterSelect (dist : List (List ℝ)) (im : ℝ) (C K : Nat)
    (inter_old_vs_new : Bool) (current_index : Nat)
    (old_weights : Option (List (List ℝ))) (adaptative_margin : Bool)
    (adaptative_margin_max adaptative_margin_min : ℝ) (square : Bool) :
    Except RErr (List ℝ × List ℝ) :=
  if inter_old_vs_new then
    let idist := maskSelect dist (_dmr_inter_oldvsnew_mask current_index)
    .ok (idist, List.replicate idist.length im)
  else
    match old_weights, adaptative_margin with
    | some ow, true =>
      let old_dist := _dmr_weights_distance ow square
      let nb_old := ow.length / K
      let old_inter := maskSelect old_dist (_dmr_inter_mask nb_old K)
      let d := old_inter.map (fun x => max x 0)
      match d with
      | [] => .error .emptyReduce
      | x :: xs =>
        let dmax := xs.foldl max x
        let margins := d.map (fun y =>
          (adaptative_margin_max - adaptative_margin_min) / dmax * y
            + adaptative_margin_min)
        let oldnew := maskSelect dist (fun i j =>
          _dmr_inter_mask C K i j && decide (i < nb_old * K) && decide (j < nb_old * K))
        let newd := maskSelect dist (fun i j =>
          _dmr_inter_mask C K i j && !(decide (i < nb_old * K) && decide (j < nb_old * K)))
        if oldnew.length = old_inter.length then
          .ok (oldnew ++ newd, margins ++ List.replicate newd.length im)
        else .error .assertionFailed
    | _, _ =>
      let idist := maskSelect dist (_dmr_inter_mask C K)
      .ok (idist, List.replicate idist.length im)

/-- The intra-margin term of `double_margin_constrastive_regularization`
(lines 267-273): active only when the margin is set and `K > 1`. -/
noncomputable def dmrIntraTerm (dist : List (List ℝ)) (C K : Nat)
    (intra_margin : Option ℝ) (intra_aggreg : String) : Except RErr ℝ :=
  match intra_margin with
  | some im =>
    if 1 < K then
      _dmr_aggreg
        ((maskSelect dist (_dmr_intra_mask C K)).map (fun x => max (im - x) 0))
        intra_aggreg
    else .ok 0
  | none => .ok 0

/-- The inter-margin term of `double_margin_constrastive_regularization`
(lines 275-315): skipped when the margin is unset or when `inter_old_vs_new`
holds with no old classes. -/
noncomputable def dmrInterTerm (dist : List (List ℝ)) (C K : Nat)
    (inter_margin : Option ℝ) (inter_old_vs_new : Bool) (current_index : Nat)
    (old_weights : Option (List (List ℝ))) (adaptative_margin : Bool)
    (adaptative_margin_max adaptative_margin_min : ℝ) (square : Bool)
    (inter_aggreg : String) : Except RErr ℝ :=
  match inter_margin with
  | none => .ok 0
  | some im =>
    if inter_old_vs_new ∧ current_index = 0 then .ok 0
    else
      match dmrInterSelect dist im C K inter_old_vs_new current_index
        old_weights adaptative_margin adaptative_margin_max
        adaptative_margin_min square with
      | .error e => .error e
      | .ok (inter_dist, margins) =>
        _dmr_aggreg
          (List.zipWith (fun mg x => max (mg - x) 0) margins inter_dist)
          inter_aggreg

/-- Combination of the two terms of `double_margin_constrastive_regularization`
into `factor * loss`, propagating either term's failure. -/
noncomputable def dmrCore (dist : List (List ℝ)) (C K : Nat)
    (intra_margin inter_margin : Option ℝ) (inter_old_vs_new : Bool)
    (current_index : Nat) (intra_aggreg inter_aggreg : String) (square : Bool)
    (old_weights : Option (List (List ℝ))) (adaptative_margin : Bool)
    (adaptative_margin_max adaptative_margin_min : ℝ) (factor : ℝ) :
    Except RErr ℝ :=
  match dmrIntraTerm dist C K intra_margin intra_aggreg with
  | .error e => .error e
  | .ok intraLoss =>
    match dmrInterTerm dist C K inter_margin inter_old_vs_new current_index
      old_weights adaptative_margin adaptative_margin_max
      adaptative_margin_min square inter_aggreg with
    | .error e => .error e
    | .ok interLoss => .ok (factor * (intraLoss + interLoss))

noncomputable def dmrBody (weights : List (List ℝ)) (current_index K : Nat)
    (intra_margin inter_margin : Option ℝ) (inter_old_vs_new : Bool)
    (normalize : Bool) (intra_aggreg inter_aggreg : String) (square : Bool)
    (old_weights : Option (List (List ℝ))) (adaptative_margin : Bool)
    (adaptative_margin_max adaptative_margin_min : ℝ) (factor : ℝ) :
    Except RErr ℝ :=
  let w := if normalize then weights.map normalizeVec else weights
  if K = 0 then .error .zeroDivision
  else
    dmrCore (_dmr_weights_distance w square) (w.length / K) K intra_margin
      inter_margin inter_old_vs_new current_index intra_aggreg inter_aggreg
      square old_weights adaptative_margin adaptative_margin_max
      adaptative_margin_min factor

/-- `double_margin_constrastive_regularization(weights, current_index, ...)`.
The margin check of lines 256-257 runs first; `loss` starts at `0.` and each
enabled branch adds a hinge-aggregated term; the result is scaled by
`factor`. -/
noncomputable def double_margin_constrastive_regularization
    (weights : List (List ℝ)) (current_index K : Nat)
    (intra_margin inter_margin : Option ℝ) (inter_old_vs_new : Bool)
    (normalize : Bool) (intra_aggreg inter_aggreg : String) (square : Bool)
    (old_weights : Option (List (List ℝ))) (adaptative_margin : Bool)
    (adaptative_margin_max adaptative_margin_min : ℝ) (factor : ℝ) :
    Except RErr ℝ :=
  if intra_margin = none ∧ inter_margin = none then .error .invalidConfiguration
  else
    dmrBody weights current_index K intra_margin inter_margin inter_old_vs_new
      normalize intra_aggreg inter_aggreg square old_weights adaptative_margin
      adaptative_margin_max adaptative_margin_min factor

/-! ## Helper lemmas -/

theorem getD_map_lt {α β : Type} (f : α → β) (l : List α) {j : Nat}
    (h : j < l.length) (d : α) (d2 : β) : (l.map f).getD j d2 = f (l.getD j d) := by
  rw [List.getD_eq_getElem?_getD, List.getD_eq_getElem?_getD, List.getElem?_map,
    List.getElem?_eq_getElem h]
  simp

theorem getD_mem {α : Type} {l : List α} {i : Nat} (d : α) (h : i < l.length) :
    l.getD i d ∈ l := by
  rw [List.getD_eq_getElem?_getD, List.getElem?_eq_getElem h]
  exact List.getElem_mem h

theorem argminIdx_lt (l : List ℝ) (h : l ≠ []) : argminIdx l < l.length := by
  induction l with
  | nil => exact absurd rfl h
  | cons x xs ih =>
    by_cases hxs : xs = []
    · subst hxs; simp [argminIdx]
    · simp only [argminIdx]
      rw [if_neg hxs]
      split
      · simp
      · have := ih hxs
        simpa [Nat.succ_lt_succ_iff] using this

theorem argminIdx_min (l : List ℝ) (j : Nat) (hj : j < l.length) :
    l.getD (argminIdx l) 0 ≤ l.getD j 0 := by
  induction l generalizing j with
  | nil => simp at hj
  | cons x xs ih =>
    by_cases hxs : xs = []
    · subst hxs
      have : j = 0 := by simpa using Nat.lt_one_iff.mp (by simpa using hj)
      subst this
      simp [argminIdx]
    · simp only [argminIdx]
      rw [if_neg hxs]
      by_cases hle : x ≤ xs.getD (argminIdx xs) 0
      · rw [if_pos hle]
        cases j with
        | zero => simp
        | succ j =>
          simp only [List.getD_cons_zero, List.getD_cons_succ]
          exact le_trans hle (ih j (by simpa [Nat.succ_lt_succ_iff] using hj))
      · rw [if_neg hle]
        cases j with
        | zero =>
          simp only [List.getD_cons_zero, List.getD_cons_succ]
          exact le_of_lt (lt_of_not_le hle)
        | succ j =>
          simp only [List.getD_cons_succ]
          exact ih j (by simpa [Nat.succ_lt_succ_iff] using hj)

theorem getD_not_mem_eraseIdx {l : List Nat} {i : Nat} (hi : i < l.length)
    (hnd : l.Nodup) : l.getD i 0 ∉ l.eraseIdx i := by
  have hdec : l = l.take i ++ l.getD i 0 :: l.drop (i + 1) := by
    conv_lhs => rw [← List.take_append_drop i l]
    rw [List.getD_eq_getElem?_getD, List.getElem?_eq_getElem hi]
    simp [List.getElem_cons_drop]
  have hnd2 := hnd
  rw [hdec, List.nodup_append] at hnd2
  obtain ⟨-, hnd3, hdisj⟩ := hnd2
  rw [List.eraseIdx_eq_take_drop_succ, List.mem_append]
  rintro (hmem | hmem)
  · exact hdisj hmem (by simp)
  · rw [List.nodup_cons] at hnd3
    exact hnd3.1 hmem

theorem nodup_eraseIdx {l : List Nat} (hnd : l.Nodup) (i : Nat) :
    (l.eraseIdx i).Nodup := (List.eraseIdx_sublist l i).nodup hnd

theorem mem_eraseIdx_subset {l : List Nat} {x : Nat} {i : Nat}
    (h : x ∈ l.eraseIdx i) : x ∈ l := (List.eraseIdx_sublist l i).mem h

theorem dot_nil_left (b : List ℝ) : dot [] b = 0 := by simp [dot]

theorem dot_nil_right (a : List ℝ) : dot a [] = 0 := by
  cases a <;> simp [dot]

theorem dot_map_div (a b : List ℝ) (c d : ℝ) :
    dot (a.map (fun x => x / c)) (b.map (fun x => x / d)) = dot a b / (c * d) := by
  induction a generalizing b with
  | nil => simp [dot]
  | cons x a ih =>
    cases b with
    | nil => simp [dot]
    | cons y b =>
      simp only [List.map_cons, dot, List.zipWith_cons_cons, List.sum_cons]
      have := ih b
      simp only [dot] at this
      rw [this, div_mul_div_comm, div_add_div_same]

/-! ## Claim C3: exemplar reduction is prefix truncation -/

/-- C3: for every existing class, `_reduce_examplars` truncates that class's
exemplar index list to its first `m` entries, preserving order. -/
theorem reduce_examplars_truncate (examplars : List (List Nat)) (m : Nat) (ci : Nat)
    (h : ci < examplars.length) :
    (_reduce_examplars examplars m).getD ci [] = (examplars.getD ci []).take m := by
  unfold _reduce_examplars
  exact getD_map_lt (fun l => l.take m) examplars h [] []

/-- C3 witness: reducing a class holding `[5, 2, 9, 1]` to `m = 2` yields
exactly `[5, 2]`. -/
theorem reduce_examplars_truncate_witness :
    (_reduce_examplars [[5, 2, 9, 1]] 2).getD 0 [] = [5, 2] :=
  (reduce_examplars_truncate [[5, 2, 9, 1]] 2 0 (by decide)).trans (by decide)

/-! ## Claim C8: the `3third` sampling strategy on a batch of size 9 -/

/-- C8: for every batch of size 9, the `"3third"` strategy yields anchors
`[0, 3, 6]`, positives `[1, 4, 7]` and negatives `[2, 5, 8]`: slot 0/1/2 of
each consecutive group of three. -/
theorem third3_batch9 (features : List (List ℝ)) (h : features.length = 9) :
    third3Sampling features.length = .ok ([0, 3, 6], [1, 4, 7], [2, 5, 8]) := by
  rw [h]
  rfl

/-- C8 witness: a concrete batch of size 9. -/
theorem third3_batch9_witness :
    third3Sampling (List.replicate 9 ([] : List ℝ)).length =
      .ok ([0, 3, 6], [1, 4, 7], [2, 5, 8]) :=
  third3_batch9 (List.replicate 9 []) (by simp)

/-! ## Claim C10: extending the classifier preserves old rows -/

/-- C10: `_add_n_classes` copies every previously learned class's weight row
and bias entry unchanged into the first `n_classes` positions of the new
classifier, and every new position comes from the fresh initialization. -/
theorem add_n_classes_frame (n_classes : Nat) (weight : List (List ℝ))
    (bias : List ℝ) (n : Nat) (freshW : List (List ℝ)) (freshB : List ℝ)
    (hw : weight.length = n_classes) (hb : bias.length = n_classes) :
    (∀ i, i < n_classes →
      (_add_n_classes n_classes weight bias n freshW freshB).2.1.getD i [] =
        weight.getD i [] ∧
      (_add_n_classes n_classes weight bias n freshW freshB).2.2.getD i 0 =
        bias.getD i 0) ∧
    (∀ i, n_classes ≤ i →
      (_add_n_classes n_classes weight bias n freshW freshB).2.1.getD i [] =
        freshW.getD i [] ∧
      (_add_n_classes n_classes weight bias n freshW freshB).2.2.getD i 0 =
        freshB.getD i 0) := by
  have hnc : n_classes + n - n = n_classes := by omega
  have htakeW : weight.take (n_classes + n - n) = weight := by
    rw [hnc, ← hw, List.take_length]
  have htakeB : bias.take (n_classes + n - n) = bias := by
    rw [hnc, ← hb, List.take_length]
  constructor
  · intro i hi
    constructor
    · show (weight.take (n_classes + n - n) ++ freshW.drop (n_classes + n - n)).getD i []
        = weight.getD i []
      rw [htakeW, hnc, List.getD_append _ _ _ _ (by rw [hw]; exact hi)]
    · show (bias.take (n_classes + n - n) ++ freshB.drop (n_classes + n - n)).getD i 0
        = bias.getD i 0
      rw [htakeB, hnc, List.getD_append _ _ _ _ (by rw [hb]; exact hi)]
  · intro i hi
    have hdropGet : ∀ (l : List (List ℝ)),
        (l.drop n_classes).getD (i - n_classes) [] = l.getD i [] := by
      intro l
      rw [List.getD_eq_getElem?_getD, List.getD_eq_getElem?_getD,
        List.getElem?_drop, Nat.add_sub_cancel' hi]
    have hdropGet2 : ∀ (l : List ℝ),
        (l.drop n_classes).getD (i - n_classes) 0 = l.getD i 0 := by
      intro l
      rw [List.getD_eq_getElem?_getD, List.getD_eq_getElem?_getD,
        List.getElem?_drop, Nat.add_sub_cancel' hi]
    constructor
    · show (weight.take (n_classes + n - n) ++ freshW.drop (n_classes + n - n)).getD i []
        = freshW.getD i []
      rw [htakeW, hnc, List.getD_append_right _ _ _ _ (by rw [hw]; exact hi), hw,
        hdropGet]
    · show (bias.take (n_classes + n - n) ++ freshB.drop (n_classes + n - n)).getD i 0
        = freshB.getD i 0
      rw [htakeB, hnc, List.getD_append_right _ _ _ _ (by rw [hb]; exact hi), hb,
        hdropGet2]

/-- C10 witness: one old class, one new class. -/
theorem add_n_classes_frame_witness :
    (_add_n_classes 1 [[1]] [5] 1 [[2], [3]] [7, 8]).2.1.getD 0 [] = [1] ∧
    (_add_n_classes 1 [[1]] [5] 1 [[2], [3]] [7, 8]).2.2.getD 1 0 = 8 := by
  refine ⟨((add_n_classes_frame 1 [[1]] [5] 1 [[2], [3]] [7, 8] (by simp) (by simp)).1
    0 (by norm_num)).1, ?_⟩
  have := ((add_n_classes_frame 1 [[1]] [5] 1 [[2], [3]] [7, 8] (by simp) (by simp)).2
    1 (by norm_num)).2
  rw [this]
  norm_num

/-! ## Claim C4: classification error handling -/

/-- C4: `_classify` fails with `meansNotBuilt` whenever the stored means are
unset, fails with `meanCountMismatch` whenever the stored mean count differs
from the class count, and otherwise returns the nearest-mean predictions. -/
theorem classify_error_cases (means : Option (List (List ℝ))) (n_classes : Nat)
    (data : List (List (List ℝ) × List ℤ)) :
    (means = none → _classify means n_classes data = .error .meansNotBuilt) ∧
    (∀ ms, means = some ms → ms.length ≠ n_classes →
      _classify means n_classes data = .error .meanCountMismatch) ∧
    (∀ ms, means = some ms → ms.length = n_classes →
      _classify means n_classes data =
        .ok (data.flatMap (fun b => _get_closest ms b.1),
             data.flatMap (fun b => b.2))) := by
  refine ⟨fun h => ?_, fun ms h hne => ?_, fun ms h he => ?_⟩
  · subst h; rfl
  · subst h; simp [_classify, hne]
  · subst h; simp [_classify, he]

/-- C4 witness: the three branches at concrete inputs. -/
theorem classify_error_cases_witness :
    _classify none 2 [] = .error .meansNotBuilt ∧
    _classify (some [[1], [2], [3]]) 2 [] = .error .meanCountMismatch ∧
    _classify (some [[1], [2]]) 2 [] = .ok ([], []) := by
  refine ⟨(classify_error_cases none 2 []).1 rfl,
    (classify_error_cases (some [[1], [2], [3]]) 2 []).2.1 _ rfl (by simp),
    ?_⟩
  have := (classify_error_cases (some [[1], [2]]) 2 []).2.2 _ rfl (by simp)
  simpa using this

/-! ## Claim C6: dense cosine is similarity, pairwise cosine is 1 - similarity -/

theorem normalizeVec_eq_map (a : List ℝ) :
    normalizeVec a = a.map (fun x => x / norm2 a) := rfl

theorem dot_normalize (a b : List ℝ) :
    dot (normalizeVec a) (normalizeVec b) = cosSim a b := by
  rw [normalizeVec_eq_map, normalizeVec_eq_map, dot_map_div]
  rfl

/-- C6: the dense cosine form returns the raw cosine-similarity matrix of the
L2-normalized rows while the pairwise form returns `1 - cosine_similarity`, so
entry `(i, j)` of the dense matrix equals `1` minus the pairwise value on rows
`i` and `j`. -/
theorem dense_cosine_vs_pair (fs : List (List ℝ)) (i j : Nat) :
    (_dense_distance fs "cosine").map (fun M => (M.getD i []).getD j 0) =
      (_pair_distance [fs.getD i []] [fs.getD j []] "cosine").map
        (fun l => 1 - l.getD 0 0) := by
  have hL : _dense_distance fs "cosine" =
      .ok ((fs.map normalizeVec).map
        (fun x => (fs.map normalizeVec).map (fun y => dot x y))) := by
    unfold _dense_distance
    rw [if_neg (by decide), if_neg (by decide), if_neg (by decide), if_pos rfl]
  have hR : _pair_distance [fs.getD i []] [fs.getD j []] "cosine" =
      .ok [1 - cosSim (fs.getD i []) (fs.getD j [])] := by
    unfold _pair_distance
    rw [if_neg (by decide), if_neg (by decide), if_neg (by decide), if_pos rfl]
    rfl
  rw [hL, hR]
  simp only [Except.map, List.getD_cons_zero, Except.ok.injEq]
  have key : (((fs.map normalizeVec).map
      (fun x => (fs.map normalizeVec).map (fun y => dot x y))).getD i []).getD j 0 =
      cosSim (fs.getD i []) (fs.getD j []) := by
    by_cases hi : i < fs.length
    · have hni : i < (fs.map normalizeVec).length := by simpa using hi
      rw [getD_map_lt (fun x => (fs.map normalizeVec).map (fun y => dot x y))
        (fs.map normalizeVec) hni [] []]
      by_cases hj : j < fs.length
      · have hnj : j < (fs.map normalizeVec).length := by simpa using hj
        rw [getD_map_lt (fun y => dot ((fs.map normalizeVec).getD i []) y)
          (fs.map normalizeVec) hnj [] 0]
        rw [getD_map_lt normalizeVec fs hi [] [], getD_map_lt normalizeVec fs hj [] []]
        exact dot_normalize _ _
      · have hlen : ((fs.map normalizeVec).map
            (fun y => dot ((fs.map normalizeVec).getD i []) y)).length ≤ j := by
          simpa using le_of_not_lt hj
        rw [List.getD_eq_default _ _ hlen]
        have hfs : fs.getD j [] = [] :=
          List.getD_eq_default _ _ (le_of_not_lt hj)
        rw [hfs]
        unfold cosSim
        rw [dot_nil_right, zero_div]
    · have hlen : ((fs.map normalizeVec).map
          (fun x => (fs.map normalizeVec).map (fun y => dot x y))).length ≤ i := by
        simpa using le_of_not_lt hi
      rw [List.getD_eq_default _ _ hlen]
      have hfs : fs.getD i [] = [] :=
        List.getD_eq_default _ _ (le_of_not_lt hi)
      rw [hfs]
      unfold cosSim
      rw [dot_nil_left, zero_div]
      simp
  rw [key]
  ring

/-! ## Claim C9: the double-margin regularizer's configuration check -/

theorem _dmr_aggreg_ne_invalid (l : List ℝ) (m : String) :
    _dmr_aggreg l m ≠ .error .invalidConfiguration := by
  unfold _dmr_aggreg
  split_ifs
  · simp
  · cases l <;> simp
  · simp
  · simp

theorem dmrInterSelect_ne_invalid (dist : List (List ℝ)) (im : ℝ) (C K : Nat)
    (iovn : Bool) (ci : Nat) (ow : Option (List (List ℝ))) (am : Bool)
    (amax amin : ℝ) (sq : Bool) :
    dmrInterSelect dist im C K iovn ci ow am amax amin sq ≠
      .error .invalidConfiguration := by
  unfold dmrInterSelect
  split
  · simp
  · split
    · dsimp only
      split
      · simp
      · split <;> simp
    · simp

theorem dmrIntraTerm_ne_invalid (dist : List (List ℝ)) (C K : Nat)
    (im : Option ℝ) (ia : String) :
    dmrIntraTerm dist C K im ia ≠ .error .invalidConfiguration := by
  unfold dmrIntraTerm
  split
  · split
    · exact _dmr_aggreg_ne_invalid _ _
    · simp
  · simp

theorem dmrInterTerm_ne_invalid (dist : List (List ℝ)) (C K : Nat)
    (im : Option ℝ) (iovn : Bool) (ci : Nat) (ow : Option (List (List ℝ)))
    (am : Bool) (amax amin : ℝ) (sq : Bool) (ia : String) :
    dmrInterTerm dist C K im iovn ci ow am amax amin sq ia ≠
      .error .invalidConfiguration := by
  unfold dmrInterTerm
  split
  · simp
  · split
    · simp
    · split
      · rename_i heq
        intro hcon
        rw [Except.error.injEq] at hcon
        subst hcon
        exact dmrInterSelect_ne_invalid _ _ _ _ _ _ _ _ _ _ _ heq
      · exact _dmr_aggreg_ne_invalid _ _

theorem dmrCore_ne_invalid (dist : List (List ℝ)) (C K : Nat)
    (im1 im2 : Option ℝ) (iovn : Bool) (ci : Nat) (ia1 ia2 : String)
    (sq : Bool) (ow : Option (List (List ℝ))) (am : Bool) (amax amin f : ℝ) :
    dmrCore dist C K im1 im2 iovn ci ia1 ia2 sq ow am amax amin f ≠
      .error .invalidConfiguration := by
  unfold dmrCore
  split
  · rename_i heq
    intro hcon
    rw [Except.error.injEq] at hcon
    subst hcon
    exact dmrIntraTerm_ne_invalid _ _ _ _ _ heq
  · split
    · rename_i heq
      intro hcon
      rw [Except.error.injEq] at hcon
      subst hcon
      exact dmrInterTerm_ne_invalid _ _ _ _ _ _ _ _ _ _ _ _ heq
    · simp

theorem dmrBody_ne_invalid (weights : List (List ℝ)) (ci K : Nat)
    (im1 im2 : Option ℝ) (iovn nrm : Bool) (ia1 ia2 : String) (sq : Bool)
    (ow : Option (List (List ℝ))) (am : Bool) (amax amin f : ℝ) :
    dmrBody weights ci K im1 im2 iovn nrm ia1 ia2 sq ow am amax amin f ≠
      .error .invalidConfiguration := by
  unfold dmrBody
  by_cases hK : K = 0
  · simp [hK]
  · dsimp only
    rw [if_neg hK]
    exact dmrCore_ne_invalid _ _ _ _ _ _ _ _ _ _ _ _ _ _ _

/-- C9: `double_margin_constrastive_regularization` fails with
`invalidConfiguration` exactly when both `intra_margin` and `inter_margin` are
unset; the check precedes every computation on the weight matrix, so it fires
even when a later step would itself fail. -/
theorem dmr_invalid_configuration_iff (weights : List (List ℝ)) (ci K : Nat)
    (im1 im2 : Option ℝ) (iovn nrm : Bool) (ia1 ia2 : String) (sq : Bool)
    (ow : Option (List (List ℝ))) (am : Bool) (amax amin f : ℝ) :
    double_margin_constrastive_regularization weights ci K im1 im2 iovn nrm
        ia1 ia2 sq ow am amax amin f = .error .invalidConfiguration ↔
      im1 = none ∧ im2 = none := by
  unfold double_margin_constrastive_regularization
  by_cases h : im1 = none ∧ im2 = none
  · rw [if_pos h]
    simpa using h
  · rw [if_neg h]
    constructor
    · intro hcon
      exact absurd hcon (dmrBody_ne_invalid _ _ _ _ _ _ _ _ _ _ _ _ _ _ _)
    · intro hcon
      exact absurd hcon h

/-! ## Claim C5: sign of the triplet loss -/

theorem mem_zipWith_clamp {ap an : List ℝ} {m x : ℝ}
    (hx : x ∈ List.zipWith (fun p n => max (m + p - n) 0) ap an) : 0 ≤ x := by
  induction ap generalizing an with
  | nil => simp at hx
  | cons a as ih =>
    cases an with
    | nil => simp at hx
    | cons b bs =>
      simp only [List.zipWith_cons_cons, List.mem_cons] at hx
      rcases hx with h | h
      · subst h; exact le_max_right _ _
      · exact ih h

theorem _triplet_ok_nonneg {ap an : List ℝ} {margin : ℝ} {aggreg : String}
    {v : ℝ} (h : _triplet ap an margin aggreg = .ok v) : 0 ≤ v := by
  unfold _triplet at h
  have hsum : (0:ℝ) ≤ (List.zipWith (fun p n => max (margin + p - n) 0) ap an).sum :=
    List.sum_nonneg (fun x hx => mem_zipWith_clamp hx)
  split_ifs at h
  · rw [Except.ok.injEq] at h
    subst h
    exact div_nonneg hsum (Nat.cast_nonneg _)
  · rw [Except.ok.injEq] at h
    subst h
    exact hsum
  · rw [Except.ok.injEq] at h
    subst h
    exact div_nonneg hsum (Nat.cast_nonneg _)

/-- C5 (amended): for every accepted configuration whose `factor` is
nonnegative, `triplet_loss` returns a nonnegative scalar.  (The unamended
claim, quantifying over every accepted `factor`, fails: a negative `factor`
flips the sign, see the counterexample.) -/
theorem triplet_loss_nonneg (features : List (List ℝ)) (targets : List ℤ)
    (distance : String) (ranking : Bool) (aggreg : String) (margin factor : ℝ)
    (normalize : Bool) (cfg : SamplingConfig) (r : ℝ) (hf : 0 ≤ factor)
    (h : triplet_loss features targets distance ranking aggreg margin factor
      normalize cfg = .ok r) : 0 ≤ r := by
  unfold triplet_loss tripletWithFeatures at h
  split at h
  · simp at h
  · unfold tripletFromIndexes at h
    split at h
    · simp at h
    · split at h
      · simp at h
      · split at h
        · simp at h
        · rename_i base hbase
          split at h
          · split at h
            · simp at h
            · split at h
              · simp at h
              · rename_i rterm hrterm
                rw [Except.ok.injEq] at h
                subst h
                have h1 := _triplet_ok_nonneg hbase
                have h2 := _triplet_ok_nonneg hrterm
                exact mul_nonneg hf (by linarith)
          · rw [Except.ok.injEq] at h
            subst h
            exact mul_nonneg hf (_triplet_ok_nonneg hbase)

/-- Evaluation of `triplet_loss` on a concrete `3third` batch with `l1`
distance, `sum` aggregation and margin `1`: the hinge terms add to `4`. -/
theorem triplet_loss_l1_eval (factor : ℝ) :
    triplet_loss [[0], [3], [0]] [0, 0, 1] "l1" false "sum" 1 factor false
      .third3 = .ok (factor * 4) := by
  have hs : sampleTriplets [[0], [3], [0]] [0, 0, 1] "l1" SamplingConfig.third3 =
      .ok ([0], [1], [2]) := by rfl
  unfold triplet_loss tripletWithFeatures
  rw [if_neg (by decide : ¬((false : Bool) = true))]
  rw [hs]
  unfold tripletFromIndexes
  have hap : _pair_distance [[(0:ℝ)]] [[3]] "l1" = .ok [|(0:ℝ) - 3|] := by
    unfold _pair_distance
    rw [if_neg (by decide), if_neg (by decide), if_pos rfl]
    simp [l1dist]
  have han : _pair_distance [[(0:ℝ)]] [[0]] "l1" = .ok [|(0:ℝ) - 0|] := by
    unfold _pair_distance
    rw [if_neg (by decide), if_neg (by decide), if_pos rfl]
    simp [l1dist]
  simp only [List.map_cons, List.map_nil, List.getD_cons_zero, List.getD_cons_succ]
  rw [hap, han]
  have ht : _triplet [|(0:ℝ) - 3|] [|(0:ℝ) - 0|] 1 "sum" = .ok 4 := by
    unfold _triplet
    dsimp only
    rw [if_neg (by decide), if_pos rfl, Except.ok.injEq]
    have e1 : |(0:ℝ) - 3| = 3 := by
      rw [abs_of_nonpos (by norm_num)]
      norm_num
    have e2 : |(0:ℝ) - 0| = 0 := by
      rw [sub_zero, abs_zero]
    simp only [List.zipWith_cons_cons, List.zipWith_nil_left, List.sum_cons,
      List.sum_nil, e1, e2]
    rw [max_eq_left (by norm_num)]
    norm_num
  dsimp only
  rw [ht]
  dsimp only
  rw [if_neg (by decide : ¬((false : Bool) = true))]

/-- C5 counterexample: with `factor = -1` (accepted by the code) the returned
loss is `-4 < 0`, refuting nonnegativity for arbitrary accepted factors. -/
theorem triplet_loss_neg_example :
    triplet_loss [[0], [3], [0]] [0, 0, 1] "l1" false "sum" 1 (-1) false
      .third3 = .ok (-4) ∧ ((-4 : ℝ) < 0) :=
  ⟨(triplet_loss_l1_eval (-1)).trans (by norm_num), by norm_num⟩

/-- C5 witness: the amended theorem applied at a concrete accepted
configuration with `factor = 1`. -/
theorem triplet_loss_nonneg_witness : (0 : ℝ) ≤ 4 :=
  triplet_loss_nonneg [[0], [3], [0]] [0, 0, 1] "l1" false "sum" 1 1 false
    .third3 4 (by norm_num) ((triplet_loss_l1_eval 1).trans (by norm_num))

/-! ## Claim C7: guarantees of `_triplet_random_sampling` -/

theorem mem_whereEq {targets : List ℤ} {v : ℤ} {i : Nat} :
    i ∈ whereEq targets v ↔ i < targets.length ∧ targets.getD i 0 = v := by
  simp [whereEq, List.mem_filter, List.mem_range]

theorem mem_whereNe {targets : List ℤ} {v : ℤ} {i : Nat} :
    i ∈ whereNe targets v ↔ i < targets.length ∧ targets.getD i 0 ≠ v := by
  simp [whereNe, List.mem_filter, List.mem_range]

theorem whereNe_ne_nil {targets : List ℤ}
    (hdist : ∃ a ∈ targets, ∃ b ∈ targets, a ≠ b) (v : ℤ) :
    whereNe targets v ≠ [] := by
  obtain ⟨a, ha, b, hb, hab⟩ := hdist
  rcases eq_or_ne a v with hav | hav
  · subst hav
    obtain ⟨n, hn, hget⟩ := List.getElem_of_mem hb
    refine List.ne_nil_of_mem (mem_whereNe.mpr ⟨hn, ?_⟩)
    rw [List.getD_eq_getElem?_getD, List.getElem?_eq_getElem hn]
    simpa [hget] using fun hc => hab hc.symm
  · obtain ⟨n, hn, hget⟩ := List.getElem_of_mem ha
    refine List.ne_nil_of_mem (mem_whereNe.mpr ⟨hn, ?_⟩)
    rw [List.getD_eq_getElem?_getD, List.getElem?_eq_getElem hn]
    simpa [hget] using hav

theorem npChoice1_spec {l : List Nat} (hl : l ≠ []) (r : Nat) :
    ∃ n, npChoice1 l r = .ok n ∧ n ∈ l := by
  unfold npChoice1
  rw [if_neg (by simpa [List.isEmpty_iff] using hl)]
  exact ⟨_, rfl, getD_mem 0 (Nat.mod_lt _ (List.length_pos.mpr hl))⟩

theorem npChoice2_spec {l : List Nat} (replace : Bool) (hl : l ≠ [])
    (hrep : replace = false → 2 ≤ l.length) (r1 r2 : Nat) :
    ∃ a p, npChoice2 l replace r1 r2 = .ok (a, p) ∧ a ∈ l ∧ p ∈ l := by
  unfold npChoice2
  rw [if_neg (by simpa [List.isEmpty_iff] using hl)]
  have hlen : 0 < l.length := List.length_pos.mpr hl
  cases replace with
  | true =>
    exact ⟨_, _, rfl, getD_mem 0 (Nat.mod_lt _ hlen), getD_mem 0 (Nat.mod_lt _ hlen)⟩
  | false =>
    have h2 : 2 ≤ l.length := hrep rfl
    have hrest : (l.eraseIdx (r1 % l.length)) ≠ [] := by
      have hlen2 : (l.eraseIdx (r1 % l.length)).length = l.length - 1 := by
        rw [List.length_eraseIdx, if_pos (Nat.mod_lt _ hlen)]
      intro hc
      rw [hc] at hlen2
      simp at hlen2
      omega
    rw [if_neg (by decide : ¬((false : Bool) = true))]
    dsimp only
    rw [if_neg (by simpa [List.isEmpty_iff] using hrest)]
    refine ⟨_, _, rfl, getD_mem 0 (Nat.mod_lt _ hlen), ?_⟩
    exact mem_eraseIdx_subset
      (getD_mem 0 (Nat.mod_lt _ (List.length_pos.mpr hrest)))

theorem sampleRows_ok (targets : List ℤ) (oracle : Nat → Nat × Nat × Nat)
    (hdist : ∃ a ∈ targets, ∃ b ∈ targets, a ≠ b) :
    ∀ rows : List Nat, (∀ t ∈ rows, t < targets.length) →
      ∃ l, sampleRows targets oracle rows = .ok l ∧ l.length = rows.length ∧
        ∀ x ∈ l, targets.getD x.1 0 = targets.getD x.2.1 0 ∧
          targets.getD x.1 0 ≠ targets.getD x.2.2 0 := by
  intro rows
  induction rows with
  | nil => exact fun _ => ⟨[], rfl, rfl, by simp⟩
  | cons t ts ih =>
    intro hb
    have ht : t < targets.length := hb t (by simp)
    have hpl : t ∈ whereEq targets (targets.getD t 0) := mem_whereEq.mpr ⟨ht, rfl⟩
    have hplne : whereEq targets (targets.getD t 0) ≠ [] := List.ne_nil_of_mem hpl
    obtain ⟨a, p, hch, ha, hp⟩ := npChoice2_spec
      (decide ((whereEq targets (targets.getD t 0)).length < 2)) hplne
      (fun hdec => by
        have := of_decide_eq_false hdec
        omega) (oracle t).1 (oracle t).2.1
    obtain ⟨n, hn, hnmem⟩ := npChoice1_spec
      (whereNe_ne_nil hdist (targets.getD t 0)) (oracle t).2.2
    obtain ⟨l, hl, hlen, hprop⟩ := ih (fun u hu => hb u (List.mem_cons_of_mem _ hu))
    refine ⟨(a, p, n) :: l, ?_, by simp [hlen], ?_⟩
    · unfold sampleRows
      dsimp only
      rw [hch]
      dsimp only
      rw [hn]
      dsimp only
      rw [hl]
    · intro x hx
      rcases List.mem_cons.mp hx with hx | hx
      · subst hx
        refine ⟨?_, ?_⟩
        · rw [(mem_whereEq.mp ha).2, (mem_whereEq.mp hp).2]
        · rw [(mem_whereEq.mp ha).2]
          exact fun hc => (mem_whereNe.mp hnmem).2 hc.symm
      · exact hprop x hx

/-- C7: for every batch with at least two distinct labels and every outcome of
the random source, `_triplet_random_sampling` returns index sequences of
length equal to the batch size in which, row by row, anchor and positive carry
the same label while anchor and negative carry different labels. -/
theorem random_sampling_spec (targets : List ℤ) (oracle : Nat → Nat × Nat × Nat)
    (hdist : ∃ a ∈ targets, ∃ b ∈ targets, a ≠ b) :
    ∃ A P N, _triplet_random_sampling targets oracle = .ok (A, P, N) ∧
      A.length = targets.length ∧ P.length = targets.length ∧
      N.length = targets.length ∧
      ∀ k, k < targets.length →
        targets.getD (A.getD k 0) 0 = targets.getD (P.getD k 0) 0 ∧
        targets.getD (A.getD k 0) 0 ≠ targets.getD (N.getD k 0) 0 := by
  obtain ⟨l, hl, hlen, hprop⟩ := sampleRows_ok targets oracle hdist
    (List.range targets.length) (fun t ht => List.mem_range.mp ht)
  rw [List.length_range] at hlen
  refine ⟨l.map (fun x => x.1), l.map (fun x => x.2.1), l.map (fun x => x.2.2),
    ?_, by simp [hlen], by simp [hlen], by simp [hlen], ?_⟩
  · unfold _triplet_random_sampling
    rw [hl]
  · intro k hk
    have hkl : k < l.length := by rw [hlen]; exact hk
    rw [getD_map_lt (fun x => x.1) l hkl (0, 0, 0) 0,
      getD_map_lt (fun x => x.2.1) l hkl (0, 0, 0) 0,
      getD_map_lt (fun x => x.2.2) l hkl (0, 0, 0) 0]
    exact hprop _ (getD_mem (0, 0, 0) hkl)

/-- C7 witness: a two-label batch with a constant oracle. -/
theorem random_sampling_spec_witness :
    ∃ A P N, _triplet_random_sampling [0, 1] (fun _ => (0, 0, 0)) = .ok (A, P, N) ∧
      A.length = ([(0:ℤ), 1]).length ∧ P.length = ([(0:ℤ), 1]).length ∧
      N.length = ([(0:ℤ), 1]).length ∧
      ∀ k, k < ([(0:ℤ), 1]).length →
        ([(0:ℤ), 1]).getD (A.getD k 0) 0 = ([(0:ℤ), 1]).getD (P.getD k 0) 0 ∧
        ([(0:ℤ), 1]).getD (A.getD k 0) 0 ≠ ([(0:ℤ), 1]).getD (N.getD k 0) 0 :=
  random_sampling_spec [0, 1] (fun _ => (0, 0, 0))
    ⟨0, by decide, 1, by decide, by decide⟩

/-! ## Claims C1 and C2: herding selection -/

theorem _remove_row_eq (m : List (List ℝ)) (idxes : List Nat) (i : Nat) :
    _remove_row m idxes i = (m.eraseIdx i, idxes.eraseIdx i) := by
  unfold _remove_row
  rw [List.eraseIdx_eq_take_drop_succ, List.eraseIdx_eq_take_drop_succ]

theorem _get_closest_features_lt (center : List ℝ) (features : List (List ℝ))
    (h : features ≠ []) : _get_closest_features center features < features.length := by
  unfold _get_closest_features
  have hne : features.map (fun f => sqdist center (normalizeVec f)) ≠ [] := by
    simpa using h
  have := argminIdx_lt _ hne
  simpa using this

theorem herd_nodup_length (cm : List ℝ) :
    ∀ (steps i : Nat) (features : List (List ℝ)) (idxes : List Nat) (em : List ℝ)
      (acc : List Nat),
      steps ≤ features.length → idxes.length = features.length → idxes.Nodup →
      acc.Nodup → (∀ x ∈ acc, x ∉ idxes) →
      (herd cm steps i features idxes em acc).1.Nodup ∧
      (herd cm steps i features idxes em acc).1.length = acc.length + steps := by
  intro steps
  induction steps with
  | zero =>
    intro i features idxes em acc _ _ _ hacc _
    exact ⟨hacc, by simp [herd]⟩
  | succ s ih =>
    intro i features idxes em acc hsteps hlen hnd hacc hdisj
    have hfne : features ≠ [] := by
      intro hc
      rw [hc] at hsteps
      simp at hsteps
    have hidxlt : _get_closest_features cm
        (features.map (fun f => vecSMul (1 / ((i : ℝ) + 1)) (vecAdd f em))) <
        features.length := by
      have := _get_closest_features_lt cm
        (features.map (fun f => vecSMul (1 / ((i : ℝ) + 1)) (vecAdd f em)))
        (by simpa using hfne)
      simpa using this
    have hstep : herd cm (s + 1) i features idxes em acc =
        herd cm s (i + 1)
          (features.eraseIdx (_get_closest_features cm
            (features.map (fun f => vecSMul (1 / ((i : ℝ) + 1)) (vecAdd f em)))))
          (idxes.eraseIdx (_get_closest_features cm
            (features.map (fun f => vecSMul (1 / ((i : ℝ) + 1)) (vecAdd f em)))))
          (vecAdd em (features.getD (_get_closest_features cm
            (features.map (fun f => vecSMul (1 / ((i : ℝ) + 1)) (vecAdd f em)))) []))
          (acc ++ [idxes.getD (_get_closest_features cm
            (features.map (fun f => vecSMul (1 / ((i : ℝ) + 1)) (vecAdd f em)))) 0]) := by
      conv_lhs => rw [herd]
      rw [_remove_row_eq]
    rw [hstep]
    have hidxlt2 : _get_closest_features cm
        (features.map (fun f => vecSMul (1 / ((i : ℝ) + 1)) (vecAdd f em))) <
        idxes.length := by rw [hlen]; exact hidxlt
    have hchosen : idxes.getD (_get_closest_features cm
        (features.map (fun f => vecSMul (1 / ((i : ℝ) + 1)) (vecAdd f em)))) 0 ∈ idxes :=
      getD_mem 0 hidxlt2
    have hfel : (features.eraseIdx (_get_closest_features cm
        (features.map (fun f => vecSMul (1 / ((i : ℝ) + 1)) (vecAdd f em))))).length =
        features.length - 1 := by
      rw [List.length_eraseIdx, if_pos hidxlt]
    have hiel : (idxes.eraseIdx (_get_closest_features cm
        (features.map (fun f => vecSMul (1 / ((i : ℝ) + 1)) (vecAdd f em))))).length =
        idxes.length - 1 := by
      rw [List.length_eraseIdx, if_pos hidxlt2]
    have hres := ih (i + 1) _ _
      (vecAdd em (features.getD (_get_closest_features cm
        (features.map (fun f => vecSMul (1 / ((i : ℝ) + 1)) (vecAdd f em)))) []))
      (acc ++ [idxes.getD (_get_closest_features cm
        (features.map (fun f => vecSMul (1 / ((i : ℝ) + 1)) (vecAdd f em)))) 0])
      (by rw [hfel]; omega)
      (by rw [hfel, hiel, hlen])
      (nodup_eraseIdx hnd _)
      (by
        rw [List.nodup_append]
        refine ⟨hacc, by simp, ?_⟩
        intro x hx
        simp only [List.mem_singleton]
        intro hxc
        subst hxc
        exact hdisj _ hx hchosen)
      (by
        intro x hx
        rcases List.mem_append.mp hx with hx | hx
        · exact fun hc => hdisj x hx (mem_eraseIdx_subset hc)
        · rw [List.mem_singleton] at hx
          subst hx
          exact getD_not_mem_eraseIdx hidxlt2 hnd)
    refine ⟨hres.1, ?_⟩
    rw [hres.2]
    simp
    omega

/-- C2: for every class and budget `m`, with pairwise-distinct candidate
sample indexes the herding loop selects pairwise-distinct sample indexes
(each round removes the chosen row from the pool), and the number of selected
indexes is `min m (number of class samples)`. -/
theorem herding_no_duplicates (d m : Nat) (features : List (List ℝ))
    (class_mean : List ℝ) (idxes : List Nat)
    (hlen : idxes.length = features.length) (hnd : idxes.Nodup) :
    (_build_examplars_class d m features class_mean idxes).1.Nodup ∧
    (_build_examplars_class d m features class_mean idxes).1.length =
      min m features.length := by
  unfold _build_examplars_class
  dsimp only
  have hres := herd_nodup_length class_mean (min m features.length) 0 features idxes
    (List.replicate d 0) [] (Nat.min_le_right m features.length) hlen hnd
    (by simp) (by simp)
  exact ⟨hres.1, by simpa using hres.2⟩

/-- C2 witness: three candidates, budget two. -/
theorem herding_no_duplicates_witness :
    (_build_examplars_class 1 2 [[1], [2], [3]] [0] [4, 5, 6]).1.Nodup ∧
    (_build_examplars_class 1 2 [[1], [2], [3]] [0] [4, 5, 6]).1.length =
      min 2 ([[1], [2], [3]] : List (List ℝ)).length :=
  herding_no_duplicates 1 2 [[1], [2], [3]] [0] [4, 5, 6] (by simp) (by decide)

theorem vecAdd_replicate_zero (f : List ℝ) (d : Nat) (h : f.length ≤ d) :
    vecAdd f (List.replicate d 0) = f := by
  induction f generalizing d with
  | nil => simp [vecAdd]
  | cons x xs ih =>
    cases d with
    | zero => simp at h
    | succ d2 =>
      simp only [List.replicate_succ, vecAdd, List.zipWith_cons_cons, add_zero]
      have := ih d2 (by simpa using h)
      simpa [vecAdd] using this

theorem vecSMul_one (f : List ℝ) : vecSMul 1 f = f := by
  simp [vecSMul, one_mul]

/-- C1: with an exemplar budget of one, the single selected exemplar is (the
dataset index of) the sample whose normalized feature is closest, in squared
Euclidean distance, to the class mean among all samples of the class. -/
theorem herding_m1 (d : Nat) (features : List (List ℝ)) (class_mean : List ℝ)
    (idxes : List Nat) (hne : features ≠ [])
    (hdim : ∀ f ∈ features, f.length = d) :
    ∃ i0, i0 < features.length ∧
      (_build_examplars_class d 1 features class_mean idxes).1 = [idxes.getD i0 0] ∧
      ∀ j, j < features.length →
        sqdist class_mean (normalizeVec (features.getD i0 [])) ≤
          sqdist class_mean (normalizeVec (features.getD j [])) ∧
        Real.sqrt (sqdist class_mean (normalizeVec (features.getD i0 []))) ≤
          Real.sqrt (sqdist class_mean (normalizeVec (features.getD j []))) := by
  have hpos : 0 < features.length := List.length_pos.mpr hne
  have hmin : min 1 features.length = 1 := by omega
  have hcand : features.map
      (fun f => vecSMul (1 / (((0 : ℕ) : ℝ) + 1)) (vecAdd f (List.replicate d 0))) =
      features := by
    have hstep : ∀ f ∈ features,
        vecSMul (1 / (((0 : ℕ) : ℝ) + 1)) (vecAdd f (List.replicate d 0)) = id f := by
      intro f hf
      rw [vecAdd_replicate_zero f d (le_of_eq (hdim f hf))]
      norm_num
      exact vecSMul_one f
    rw [List.map_congr_left hstep, List.map_id]
  refine ⟨_get_closest_features class_mean features, ?_, ?_, ?_⟩
  · exact _get_closest_features_lt class_mean features hne
  · unfold _build_examplars_class
    dsimp only
    rw [hmin]
    conv_lhs => rw [herd]
    rw [hcand]
    conv_lhs => rw [herd]
    simp
  · intro j hj
    unfold _get_closest_features
    have hlt : j < (features.map (fun f => sqdist class_mean (normalizeVec f))).length := by
      simpa using hj
    have hmj := argminIdx_min (features.map (fun f => sqdist class_mean (normalizeVec f)))
      j hlt
    have hlt0 : argminIdx (features.map (fun f => sqdist class_mean (normalizeVec f))) <
        features.length := by
      have := argminIdx_lt (features.map (fun f => sqdist class_mean (normalizeVec f)))
        (by simpa using hne)
      simpa using this
    rw [getD_map_lt (fun f => sqdist class_mean (normalizeVec f)) features hlt0 [] 0,
      getD_map_lt (fun f => sqdist class_mean (normalizeVec f)) features hj [] 0] at hmj
    exact ⟨hmj, Real.sqrt_le_sqrt hmj⟩

/-- C1 witness: two orthogonal unit features; the theorem applies with `m = 1`. -/
theorem herding_m1_witness :
    ∃ i0, i0 < ([[1, 0], [0, 1]] : List (List ℝ)).length ∧
      (_build_examplars_class 2 1 [[1, 0], [0, 1]] [1, 0] [7, 9]).1 =
        [([7, 9] : List Nat).getD i0 0] ∧
      ∀ j, j < ([[1, 0], [0, 1]] : List (List ℝ)).length →
        sqdist [1, 0] (normalizeVec (([[1, 0], [0, 1]] : List (List ℝ)).getD i0 [])) ≤
          sqdist [1, 0] (normalizeVec (([[1, 0], [0, 1]] : List (List ℝ)).getD j [])) ∧
        Real.sqrt
            (sqdist [1, 0] (normalizeVec (([[1, 0], [0, 1]] : List (List ℝ)).getD i0 []))) ≤
          Real.sqrt
            (sqdist [1, 0] (normalizeVec (([[1, 0], [0, 1]] : List (List ℝ)).getD j []))) :=
  herding_m1 2 [[1, 0], [0, 1]] [1, 0] [7, 9] (by simp)
    (by
      intro f hf
      simp only [List.mem_cons, List.not_mem_nil, or_false] at hf
      rcases hf with rfl | rfl <;> rfl)

end Spec2Proof
